import Mathlib

/-
Verification of gen_random.c, a build-time generator of random constant
arrays.  The C program is shallowly embedded below: pure helpers
(hamming, accept, the hex formatting of printf) become Lean functions on
Nat and String; the entropy device becomes an explicit stream of 32-bit
words; the unbounded retry loop of do_block becomes a fuel-indexed
function whose result `none` models nontermination; fatal paths (open,
calloc, short read) become explicit result constructors carrying the
diagnostic messages verbatim from the source.
-/

namespace GenRandom

/-- Binary digit sum of a natural number, fuel-indexed so that it is
structurally recursive and kernel-evaluable; fuel `x` always suffices
since `x / 2 < x` for `x > 0`. -/
def popcountAux : Nat → Nat → Nat
  | _, 0 => 0
  | 0, _ + 1 => 0
  | f + 1, x + 1 => (x + 1) % 2 + popcountAux f ((x + 1) / 2)

/-- The population count (number of set bits) of a natural number: the
mathematical notion the spec appeals to. -/
def popcount (x : Nat) : Nat := popcountAux x x

/-- Kernighan loop of `hamming` in gen_random.c: repeatedly clear the
least significant set bit (`x &= x - 1`) and count iterations.
Fuel-indexed for structural recursion; fuel `x` suffices since
`x &&& (x-1) ≤ x - 1`. -/
def hammingAux : Nat → Nat → Nat
  | _, 0 => 0
  | 0, _ + 1 => 0
  | f + 1, x + 1 => 1 + hammingAux f ((x + 1) &&& x)

/-- `hamming` from gen_random.c: the returned counter `h` is also the
number of loop iterations performed. -/
def hamming (x : Nat) : Nat := hammingAux x x

/-- Lower bound of the accepted Hamming-weight range (`#define MIN 8`). -/
def MIN : Nat := 8

/-- Upper bound of the accepted Hamming-weight range (`#define MAX (32-MIN)`). -/
def MAX : Nat := 32 - MIN

/-- The i-th byte of the 32-bit word `u` as scanned by the `char *p`
loop of `accept` (little-endian memory order; the check is applied to
all four bytes, so the order is irrelevant to the result). -/
def byte (u i : Nat) : Nat := u / 256 ^ i % 256

/-- The switch of `accept` rejects byte value 0 (case `'\0'`) and byte
value 173 = 0xAD (case `'\255'`: an octal escape, 2*64 + 5*8 + 5 = 173).
As a signed `char` comparison both sides denote the same byte pattern,
so on byte values the test is exactly this. -/
def badByte (b : Nat) : Bool := b == 0x00 || b == 0xAD

/-- `accept` from gen_random.c: reject Hamming weights outside
[MIN, MAX], then reject any word one of whose four bytes matches the
switch; otherwise return 1. -/
def accept (u : Nat) : Nat :=
  if hamming u < MIN ∨ MAX < hamming u then 0
  else if (List.range 4).any (fun i => badByte (byte u i)) then 0
  else 1

/-- One lowercase hexadecimal digit, as produced by printf's %x. -/
def isHexChar (c : Char) : Bool := "0123456789abcdef".toList.contains c

/-- The eight lowercase hex digits printed by `printf("0x%08x", w)` for a
32-bit word `w` (zero padded, most significant nibble first). -/
def hex8 (w : Nat) : String :=
  String.mk [Nat.digitChar (w / 16 ^ 7 % 16), Nat.digitChar (w / 16 ^ 6 % 16),
    Nat.digitChar (w / 16 ^ 5 % 16), Nat.digitChar (w / 16 ^ 4 % 16),
    Nat.digitChar (w / 16 ^ 3 % 16), Nat.digitChar (w / 16 ^ 2 % 16),
    Nat.digitChar (w / 16 ^ 1 % 16), Nat.digitChar (w % 16)]

/-- The text printf'd directly after the value at index `i` of `n` words
in do_block: closing of the array after the last value, a line break
after every PER_LINE = 8th value, a plain separator otherwise. -/
def sepAfter (i n : Nat) : String :=
  if i = n - 1 then " \x7d ;\n" else if i % 8 = 7 then ",\n" else ", "

/-- The printing loop of do_block over the token strings: token at index
`i` followed by `sepAfter i n`, with `n` the total word count. -/
def renderToks (n : Nat) : Nat → List String → String
  | _, [] => ""
  | i, t :: ts => t ++ sepAfter i n ++ renderToks n (i + 1) ts

/-- Everything do_block prints to stdout for one array: header line with
the array name, then the hex values with their separators, then the
final newline. -/
def printArray (name : String) (data : List Nat) : String :=
  "static u32 " ++ name ++ "[] = \x7b\n"
  ++ renderToks data.length 0 (data.map (fun w => "0x" ++ hex8 w))
  ++ "\n"

/-- Fuel-indexed chunking of a list into runs of `k`; fuel `l.length`
suffices since dropping `k ≥ 1` elements shortens a nonempty list. -/
def chunksAux (k : Nat) : Nat → List α → List (List α)
  | _, [] => []
  | 0, x :: xs => [x :: xs]
  | f + 1, x :: xs => (x :: xs).take k :: chunksAux k f ((x :: xs).drop k)

/-- Split a list into consecutive chunks of `k` elements, the last chunk
possibly shorter. -/
def chunks (k : Nat) (l : List α) : List (List α) := chunksAux k l.length l

/-- Join strings with the given separator between consecutive entries. -/
def sepJoin (s : String) : List String → String
  | [] => ""
  | [t] => t
  | t :: t' :: ts => t ++ s ++ sepJoin s (t' :: ts)

/-- Modelled from the spec's words, for comparison with `printArray`:
an array literal holding the given value tokens, comma-separated, eight
per line, terminated by the closing brace and semicolon. -/
def specArray (name : String) (toks : List String) : String :=
  "static u32 " ++ name ++ "[] = \x7b\n"
  ++ sepJoin ",\n" ((chunks 8 toks).map (sepJoin ", "))
  ++ " \x7d ;\n" ++ "\n"

/-- Diagnostic printed (verbatim, with the source's typos) when the
bulk read of do_block returns fewer bytes than requested. -/
def readMsg : String := "gen_random_int: read() failed, cannot contiue\n"

/-- Diagnostic printed when calloc fails in do_block. -/
def callocMsg : String := "gen_random_init: calloc() failed, cannot continue\n"

/-- Diagnostic printed when /dev/urandom cannot be opened in main. -/
def openMsg : String := "gen_random_init: no /dev/urandom, cannot continue\n"

/-- The inner `while(!accept(*p)) read(...)` loop of do_block over an
entropy stream `src` of 32-bit words with read cursor `pos`: keep the
current word `w` as soon as it is accepted, otherwise overwrite it with
the next word from the stream.  Retry reads are modelled as always
succeeding (the claims about this loop assume successful reads, under
which the C status flag `x` stays nonzero); `fuel` bounds the number of
retry reads, and exhausting it models nontermination. -/
def refill (src : Nat → Nat) : Nat → Nat → Nat → Option (Nat × Nat)
  | 0, pos, w => if accept w ≠ 0 then some (w, pos) else none
  | f + 1, pos, w =>
    if accept w ≠ 0 then some (w, pos)
    else refill src f (pos + 1) (src pos)

/-- The outer replacement loop of do_block: run `refill` over each
buffered word in order, threading the read cursor; `none` when some
inner loop exhausts its fuel. -/
def filterWords (src : Nat → Nat) (fuel : Nat) : Nat → List Nat → Option (List Nat × Nat)
  | pos, [] => some ([], pos)
  | pos, w :: ws =>
    match refill src fuel pos w with
    | none => none
    | some (w', pos') =>
      match filterWords src fuel pos' ws with
      | none => none
      | some (ws', pos'') => some (w' :: ws', pos'')

/-- Outcome of one do_block call: a fatal diagnostic (calloc failure or
short bulk read, stderr message attached, exit 1 follows), divergence of
the retry loop, or success with the final buffer contents and the read
cursor after the call. -/
inductive DBResult where
  | fatal (msg : String)
  | hang
  | ok (data : List Nat) (pos : Nat)
deriving DecidableEq

/-- do_block from gen_random.c for `nwords` words: check calloc, bulk
read `4 * nwords` bytes (fatal unless exactly that many arrive, with no
retry), then run the acceptance-replacement loop.  The entropy device is
the word stream `src` with cursor `pos`; the bulk read consumes words
`pos` to `pos + nwords - 1`, and `bulkBytes` is the byte count that read
returned. -/
def do_block (callocOk : Bool) (bulkBytes : Nat) (src : Nat → Nat)
    (fuel pos nwords : Nat) : DBResult :=
  if callocOk = false then .fatal callocMsg
  else if bulkBytes ≠ 4 * nwords then .fatal readMsg
  else
    match filterWords src fuel (pos + nwords) ((List.range nwords).map (fun k => src (pos + k))) with
    | none => .hang
    | some (data, pos') => .ok data pos'

/-- What one do_block call contributes to stdout: both fatal paths exit
before the first printf of the array, and a diverging retry loop never
reaches it, so only success prints. -/
def dbStdout (name : String) : DBResult → String
  | .fatal _ => ""
  | .hang => ""
  | .ok data _ => printArray name data

/-- INPUT_POOL_SHIFT from the configuration block. -/
def INPUT_POOL_SHIFT : Nat := 12

/-- INPUT_POOL_WORDS = 1 << (INPUT_POOL_SHIFT - 5). -/
def INPUT_POOL_WORDS : Nat := 1 <<< (INPUT_POOL_SHIFT - 5)

/-- OUTPUT_POOL_SHIFT from the configuration block. -/
def OUTPUT_POOL_SHIFT : Nat := 10

/-- OUTPUT_POOL_WORDS = 1 << (OUTPUT_POOL_SHIFT - 5). -/
def OUTPUT_POOL_WORDS : Nat := 1 <<< (OUTPUT_POOL_SHIFT - 5)

/-- TOTAL_POOL_WORDS = INPUT_POOL_WORDS + 2 * OUTPUT_POOL_WORDS. -/
def TOTAL_POOL_WORDS : Nat := INPUT_POOL_WORDS + 2 * OUTPUT_POOL_WORDS

/-- The header comment and the three #define lines main prints before
generating any block, with the compiled-in constant values rendered in
decimal exactly as printf's %d does. -/
def preamble : String :=
  "/* File generated by gen_random_init.c */\n\n"
  ++ "#define INPUT_POOL_WORDS " ++ toString INPUT_POOL_WORDS ++ "\n"
  ++ "#define OUTPUT_POOL_WORDS " ++ toString OUTPUT_POOL_WORDS ++ "\n"
  ++ "#define INPUT_POOL_SHIFT " ++ toString INPUT_POOL_SHIFT ++ "\n\n"

/-- Observable outcome of a run of main: exit code with the full stdout
and the list of stderr messages, or divergence with the stdout produced
before the program stopped making progress. -/
inductive RunResult where
  | exited (code : Nat) (stdout : String) (stderr : List String)
  | diverged (stdout : String)
deriving DecidableEq

/-- The stdout produced by a run, including a diverging one. -/
def runStdout : RunResult → String
  | .exited _ s _ => s
  | .diverged s => s

/-- Environment of one run: whether open("/dev/urandom") succeeds,
whether calloc succeeds, how many bytes the bulk read returns, and the
word stream the device yields. -/
structure Env where
  openOk : Bool
  callocOk : Bool
  bulkBytes : Nat
  src : Nat → Nat

/-- main from gen_random.c with CONFIG_RANDOM_GCM unset (the build
toggle is absent by default): open the device or die, print the
preamble, generate the "pools" block of TOTAL_POOL_WORDS words, and exit
0; a fatal do_block leaves the preamble on stdout, prints its diagnostic
to stderr and exits 1. -/
def mainProg (env : Env) (fuel : Nat) : RunResult :=
  if env.openOk = false then .exited 1 "" [openMsg]
  else
    match do_block env.callocOk env.bulkBytes env.src fuel 0 TOTAL_POOL_WORDS with
    | .fatal msg => .exited 1 preamble [msg]
    | .hang => .diverged preamble
    | .ok data _ => .exited 0 (preamble ++ printArray "pools" data) []

theorem popcountAux_zero (f : Nat) : popcountAux f 0 = 0 := by
  cases f <;> rfl

theorem popcountAux_unfold (f x : Nat) (hx : x ≠ 0) :
    popcountAux (f + 1) x = x % 2 + popcountAux f (x / 2) := by
  cases x with
  | zero => exact absurd rfl hx
  | succ y => rfl

theorem popcountAux_fuel (f₁ f₂ x : Nat) (h₁ : x ≤ f₁) (h₂ : x ≤ f₂) :
    popcountAux f₁ x = popcountAux f₂ x := by
  induction f₁ generalizing f₂ x with
  | zero =>
    have : x = 0 := Nat.le_zero.mp h₁
    subst this
    rw [popcountAux_zero, popcountAux_zero]
  | succ f ih =>
    cases x with
    | zero => rw [popcountAux_zero, popcountAux_zero]
    | succ y =>
      cases f₂ with
      | zero => exact absurd h₂ (by omega)
      | succ g =>
        rw [popcountAux_unfold f (y + 1) (by omega),
            popcountAux_unfold g (y + 1) (by omega)]
        have hle₁ : (y + 1) / 2 ≤ f := by omega
        have hle₂ : (y + 1) / 2 ≤ g := by omega
        rw [ih g ((y + 1) / 2) hle₁ hle₂]

theorem popcount_zero : popcount 0 = 0 := rfl

theorem popcount_two_mul (q : Nat) : popcount (2 * q) = popcount q := by
  cases q with
  | zero => rfl
  | succ y =>
    show popcountAux (2 * (y + 1)) (2 * (y + 1)) = popcountAux (y + 1) (y + 1)
    have h2 : 2 * (y + 1) = (2 * (y + 1) - 1) + 1 := by omega
    rw [h2, popcountAux_unfold _ _ (by omega)]
    have hm : ((2 * (y + 1) - 1) + 1) % 2 = 0 := by omega
    have hd : ((2 * (y + 1) - 1) + 1) / 2 = y + 1 := by omega
    rw [hm, hd, Nat.zero_add]
    exact popcountAux_fuel _ _ _ (by omega) le_rfl

theorem popcount_two_mul_add_one (q : Nat) :
    popcount (2 * q + 1) = popcount q + 1 := by
  show popcountAux (2 * q + 1) (2 * q + 1) = popcountAux q q + 1
  have h2 : 2 * q + 1 = (2 * q) + 1 := rfl
  rw [popcountAux_unfold (2 * q) (2 * q + 1) (by omega)]
  have hm : (2 * q + 1) % 2 = 1 := by omega
  have hd : (2 * q + 1) / 2 = q := by omega
  rw [hm, hd, popcountAux_fuel (2 * q) q q (by omega) le_rfl]
  omega

/-- Sanity connection with Mathlib's binary expansion: `popcount` is the
number of true bits of `x`. -/
theorem popcount_eq_count_bits (x : Nat) : popcount x = x.bits.count true := by
  induction x using Nat.strong_induction_on with
  | _ x ih =>
    rcases Nat.eq_zero_or_pos x with hx | hx
    · subst hx
      simp [popcount_zero, Nat.zero_bits]
    rcases Nat.even_or_odd x with he | ho
    · obtain ⟨q, hq⟩ := he
      have hx2 : x = 2 * q := by omega
      subst hx2
      have hq0 : q ≠ 0 := by omega
      rw [popcount_two_mul, Nat.bit0_bits q hq0, List.count_cons,
          ih q (by omega)]
      simp
    · obtain ⟨q, hq⟩ := ho
      subst hq
      rw [popcount_two_mul_add_one, Nat.bit1_bits q, List.count_cons,
          ih q (by omega)]
      simp

theorem land_two_mul_add_one (q : Nat) : (2 * q + 1) &&& (2 * q) = 2 * q := by
  apply Nat.eq_of_testBit_eq
  intro i
  cases i with
  | zero =>
    have h1 : (2 * q + 1) % 2 = 1 := by omega
    have h2 : 2 * q % 2 = 0 := by omega
    simp [Nat.testBit_and, Nat.testBit_zero, h1, h2]
  | succ i =>
    have h1 : (2 * q + 1) / 2 = q := by omega
    have h2 : 2 * q / 2 = q := by omega
    rw [Nat.testBit_and, Nat.testBit_add_one, Nat.testBit_add_one,
        h1, h2, Bool.and_self]

theorem land_two_mul_pred (q : Nat) (_hq : q ≠ 0) :
    (2 * q) &&& (2 * q - 1) = 2 * (q &&& (q - 1)) := by
  apply Nat.eq_of_testBit_eq
  intro i
  cases i with
  | zero =>
    have h1 : 2 * q % 2 = 0 := by omega
    have h2 : 2 * (q &&& (q - 1)) % 2 = 0 := by omega
    simp [Nat.testBit_and, Nat.testBit_zero, h1, h2]
  | succ i =>
    have h1 : 2 * q / 2 = q := by omega
    have h2 : (2 * q - 1) / 2 = q - 1 := by omega
    have h3 : 2 * (q &&& (q - 1)) / 2 = q &&& (q - 1) := by omega
    rw [Nat.testBit_and, Nat.testBit_add_one, Nat.testBit_add_one,
        Nat.testBit_add_one, h1, h2, h3, Nat.testBit_and]

/-- Clearing the least significant set bit removes exactly one set bit. -/
theorem popcount_land_pred (x : Nat) (hx : x ≠ 0) :
    popcount (x &&& (x - 1)) + 1 = popcount x := by
  induction x using Nat.strong_induction_on with
  | _ x ih =>
    rcases Nat.even_or_odd x with he | ho
    · obtain ⟨q, hq⟩ := he
      have hx2 : x = 2 * q := by omega
      subst hx2
      have hq0 : q ≠ 0 := by omega
      rw [land_two_mul_pred q hq0, popcount_two_mul, popcount_two_mul,
          ih q (by omega) hq0]
    · obtain ⟨q, hq⟩ := ho
      subst hq
      have hp : 2 * q + 1 - 1 = 2 * q := by omega
      rw [hp, land_two_mul_add_one, popcount_two_mul,
          popcount_two_mul_add_one]

theorem hammingAux_eq (f x : Nat) (h : x ≤ f) : hammingAux f x = popcount x := by
  induction f generalizing x with
  | zero =>
    have : x = 0 := Nat.le_zero.mp h
    subst this
    rfl
  | succ f ih =>
    cases x with
    | zero => rw [popcount_zero]; rfl
    | succ y =>
      show 1 + hammingAux f ((y + 1) &&& y) = popcount (y + 1)
      have hle : (y + 1) &&& y ≤ f :=
        le_trans Nat.and_le_right (by omega)
      rw [ih _ hle]
      have hk := popcount_land_pred (y + 1) (by omega)
      have hp : y + 1 - 1 = y := by omega
      rw [hp] at hk
      omega

/-- The Kernighan loop computes the population count; since the returned
counter `h` is incremented once per iteration, the loop performs exactly
`popcount x` iterations. -/
theorem hamming_eq_popcount (x : Nat) : hamming x = popcount x :=
  hammingAux_eq x x le_rfl

theorem accept_zero_or_one (u : Nat) : accept u = 0 ∨ accept u = 1 := by
  unfold accept
  split
  · exact Or.inl rfl
  split
  · exact Or.inl rfl
  · exact Or.inr rfl

theorem accept_eq_one_iff (u : Nat) :
    accept u = 1 ↔ (MIN ≤ popcount u ∧ popcount u ≤ MAX ∧
      ∀ i, i < 4 → byte u i ≠ 0x00 ∧ byte u i ≠ 0xAD) := by
  unfold accept
  simp only [hamming_eq_popcount]
  by_cases h1 : popcount u < MIN ∨ MAX < popcount u
  · rw [if_pos h1]
    constructor
    · intro h; exact absurd h (by decide)
    · rintro ⟨ha, hb, -⟩; omega
  · rw [if_neg h1]
    by_cases h2 : (List.range 4).any (fun i => badByte (byte u i)) = true
    · rw [if_pos h2]
      rw [List.any_eq_true] at h2
      obtain ⟨i, hi, hbad⟩ := h2
      rw [List.mem_range] at hi
      simp only [badByte, Bool.or_eq_true, beq_iff_eq] at hbad
      constructor
      · intro h; exact absurd h (by decide)
      · rintro ⟨-, -, hall⟩
        rcases hbad with hb | hb
        · exact absurd hb (hall i hi).1
        · exact absurd hb (hall i hi).2
    · rw [if_neg h2]
      constructor
      · intro _
        refine ⟨by omega, by omega, ?_⟩
        intro i hi
        rw [List.any_eq_true] at h2
        push_neg at h2
        have := h2 i (List.mem_range.mpr hi)
        simp only [badByte, ne_eq, Bool.or_eq_true, beq_iff_eq, not_or] at this
        exact this
      · intro _; rfl

/-- C1: on the code, the claimed acceptance condition (popcount within
[8, 24] and no byte equal to 0x00 or 0xFF) is violated in both
directions: 0x010101FF has a 0xFF byte yet is accepted, because the
switch case written as the octal escape '\255' matches byte 0xAD = 173,
not 0xFF — contradicting the source's own comments that every byte of
an accepted word has at least one 0 bit and one 1 bit; conversely
0xAD0F0F0F meets the claimed condition yet is rejected. -/
theorem C1_accept_at_failing_input :
    accept 0x010101FF = 1 ∧ byte 0x010101FF 0 = 0xFF ∧
    popcount 0x010101FF = 11 ∧
    accept 0xAD0F0F0F = 0 ∧ popcount 0xAD0F0F0F = 17 ∧
    (∀ i, i < 4 → byte 0xAD0F0F0F i ≠ 0x00 ∧ byte 0xAD0F0F0F i ≠ 0xFF) := by
  decide

/-- C3: the byte-level check of accept rejects exactly the byte values
0x00 and 0xAD (the octal character constant '\255'): any word with such
a byte is rejected; any word with population count in [8, 24] and all
four bytes different from 0x00 and 0xAD is accepted; in particular some
word containing a 0xFF byte with population count in [8, 24] is
accepted. -/
theorem C3_byte_filter_exact :
    (∀ u, u < 2 ^ 32 → (∃ i, i < 4 ∧ (byte u i = 0x00 ∨ byte u i = 0xAD)) →
      accept u = 0)
    ∧ (∀ u, u < 2 ^ 32 → 8 ≤ popcount u → popcount u ≤ 24 →
        (∀ i, i < 4 → byte u i ≠ 0x00 ∧ byte u i ≠ 0xAD) → accept u = 1)
    ∧ (∃ u, u < 2 ^ 32 ∧ (∃ i, i < 4 ∧ byte u i = 0xFF) ∧
        8 ≤ popcount u ∧ popcount u ≤ 24 ∧ accept u = 1) := by
  refine ⟨?_, ?_, ?_⟩
  · intro u _ ⟨i, hi, hbad⟩
    rcases accept_zero_or_one u with h | h
    · exact h
    · obtain ⟨-, -, hall⟩ := (accept_eq_one_iff u).mp h
      rcases hbad with hb | hb
      · exact absurd hb (hall i hi).1
      · exact absurd hb (hall i hi).2
  · intro u _ h8 h24 hall
    exact (accept_eq_one_iff u).mpr ⟨h8, h24, hall⟩
  · exact ⟨0x010101FF, by decide, ⟨0, by decide, by decide⟩, by decide,
      by decide, by decide⟩

theorem C3_witness : accept 0xAD010101 = 0 ∧ accept 0x0F0F0F17 = 1 :=
  ⟨C3_byte_filter_exact.1 0xAD010101 (by decide) ⟨3, by decide, Or.inr (by decide)⟩,
    C3_byte_filter_exact.2.1 0x0F0F0F17 (by decide) (by decide) (by decide)
      (by decide)⟩

/-- C8: hamming returns the population count of every 32-bit input; the
returned counter h is incremented exactly once per iteration of the
bit-clearing loop, so the loop performs exactly popcount(x) iterations. -/
theorem C8_hamming_popcount (x : Nat) (_hx : x < 2 ^ 32) :
    hamming x = popcount x :=
  hamming_eq_popcount x

theorem C8_witness :
    0xDEADBEEF < 2 ^ 32 ∧ hamming 0xDEADBEEF = popcount 0xDEADBEEF :=
  ⟨by decide, C8_hamming_popcount 0xDEADBEEF (by decide)⟩

theorem refill_accept (src : Nat → Nat) (f : Nat) :
    ∀ pos w w' pos', refill src f pos w = some (w', pos') → accept w' = 1 := by
  induction f with
  | zero =>
    intro pos w w' pos' h
    simp only [refill] at h
    split at h
    · rename_i hacc
      simp only [Option.some.injEq, Prod.mk.injEq] at h
      obtain ⟨rfl, -⟩ := h
      rcases accept_zero_or_one w with h0 | h1
      · exact absurd h0 hacc
      · exact h1
    · exact Option.noConfusion h
  | succ f ih =>
    intro pos w w' pos' h
    simp only [refill] at h
    split at h
    · rename_i hacc
      simp only [Option.some.injEq, Prod.mk.injEq] at h
      obtain ⟨rfl, -⟩ := h
      rcases accept_zero_or_one w with h0 | h1
      · exact absurd h0 hacc
      · exact h1
    · exact ih (pos + 1) (src pos) w' pos' h

theorem filterWords_accept (src : Nat → Nat) (fuel : Nat) :
    ∀ ws pos ws' pos', filterWords src fuel pos ws = some (ws', pos') →
      ∀ w ∈ ws', accept w = 1 := by
  intro ws
  induction ws with
  | nil =>
    intro pos ws' pos' h w hw
    simp only [filterWords, Option.some.injEq, Prod.mk.injEq] at h
    obtain ⟨rfl, -⟩ := h
    exact absurd hw (List.not_mem_nil w)
  | cons w0 ws ih =>
    intro pos ws' pos' h w hw
    cases hr : refill src fuel pos w0 with
    | none => simp only [filterWords, hr] at h; exact Option.noConfusion h
    | some r =>
      obtain ⟨w1, pos1⟩ := r
      simp only [filterWords, hr] at h
      cases hf : filterWords src fuel pos1 ws with
      | none => simp only [hf] at h; exact Option.noConfusion h
      | some r2 =>
        obtain ⟨ws2, pos2⟩ := r2
        simp only [hf, Option.some.injEq, Prod.mk.injEq] at h
        obtain ⟨rfl, -⟩ := h
        rcases List.mem_cons.mp hw with rfl | hw2
        · exact refill_accept src fuel pos w0 w pos1 hr
        · exact ih pos1 ws2 pos2 hf w hw2

theorem filterWords_length (src : Nat → Nat) (fuel : Nat) :
    ∀ ws pos ws' pos', filterWords src fuel pos ws = some (ws', pos') →
      ws'.length = ws.length := by
  intro ws
  induction ws with
  | nil =>
    intro pos ws' pos' h
    simp only [filterWords, Option.some.injEq, Prod.mk.injEq] at h
    obtain ⟨rfl, -⟩ := h
    rfl
  | cons w0 ws ih =>
    intro pos ws' pos' h
    cases hr : refill src fuel pos w0 with
    | none => simp only [filterWords, hr] at h; exact Option.noConfusion h
    | some r =>
      obtain ⟨w1, pos1⟩ := r
      simp only [filterWords, hr] at h
      cases hf : filterWords src fuel pos1 ws with
      | none => simp only [hf] at h; exact Option.noConfusion h
      | some r2 =>
        obtain ⟨ws2, pos2⟩ := r2
        simp only [hf, Option.some.injEq, Prod.mk.injEq] at h
        obtain ⟨rfl, -⟩ := h
        simp only [List.length_cons, ih pos1 ws2 pos2 hf]

theorem refill_mono (src : Nat → Nat) :
    ∀ f f' pos w r, f ≤ f' → refill src f pos w = some r →
      refill src f' pos w = some r := by
  intro f
  induction f with
  | zero =>
    intro f' pos w r _ h
    by_cases hacc : accept w ≠ 0
    · simp only [refill, if_pos hacc] at h
      cases f' <;> simp only [refill, if_pos hacc] <;> exact h
    · simp only [refill, if_neg hacc] at h
      exact Option.noConfusion h
  | succ f ih =>
    intro f' pos w r hle h
    by_cases hacc : accept w ≠ 0
    · simp only [refill, if_pos hacc] at h
      cases f' <;> simp only [refill, if_pos hacc] <;> exact h
    · simp only [refill, if_neg hacc] at h
      cases f' with
      | zero => omega
      | succ g =>
        simp only [refill, if_neg hacc]
        exact ih g (pos + 1) (src pos) r (by omega) h

theorem filterWords_mono (src : Nat → Nat) :
    ∀ ws f f' pos r, f ≤ f' → filterWords src f pos ws = some r →
      filterWords src f' pos ws = some r := by
  intro ws
  induction ws with
  | nil =>
    intro f f' pos r _ h
    simp only [filterWords] at h ⊢
    exact h
  | cons w0 ws ih =>
    intro f f' pos r hle h
    cases hr : refill src f pos w0 with
    | none => simp only [filterWords, hr] at h; exact Option.noConfusion h
    | some r1 =>
      obtain ⟨w1, pos1⟩ := r1
      simp only [filterWords, hr] at h
      simp only [filterWords, refill_mono src f f' pos w0 (w1, pos1) hle hr]
      cases hf : filterWords src f pos1 ws with
      | none => simp only [hf] at h; exact Option.noConfusion h
      | some r2 =>
        simp only [hf] at h
        simp only [ih f f' pos1 r2 hle hf]
        exact h

theorem refill_exists (src : Nat → Nat) :
    ∀ k pos w, accept (src (pos + k)) ≠ 0 →
      ∃ f r, refill src f pos w = some r := by
  intro k
  induction k with
  | zero =>
    intro pos w hacc
    by_cases hw : accept w ≠ 0
    · exact ⟨0, (w, pos), by simp only [refill, if_pos hw]⟩
    · refine ⟨1, (src pos, pos + 1), ?_⟩
      simp only [refill, if_neg hw]
      rw [Nat.add_zero] at hacc
      simp only [refill, if_pos hacc]
  | succ k ih =>
    intro pos w hacc
    by_cases hw : accept w ≠ 0
    · exact ⟨0, (w, pos), by simp only [refill, if_pos hw]⟩
    · have hacc2 : accept (src ((pos + 1) + k)) ≠ 0 := by
        have he : (pos + 1) + k = pos + (k + 1) := by omega
        rw [he]; exact hacc
      obtain ⟨f, r, hf⟩ := ih (pos + 1) (src pos) hacc2
      exact ⟨f + 1, r, by simp only [refill, if_neg hw]; exact hf⟩

theorem filterWords_exists (src : Nat → Nat)
    (hsrc : ∀ start, ∃ n, start ≤ n ∧ accept (src n) ≠ 0) :
    ∀ ws pos, ∃ f r, filterWords src f pos ws = some r := by
  intro ws
  induction ws with
  | nil => exact fun pos => ⟨0, ([], pos), by simp only [filterWords]⟩
  | cons w0 ws ih =>
    intro pos
    obtain ⟨n, hn, hacc⟩ := hsrc pos
    have hk : accept (src (pos + (n - pos))) ≠ 0 := by
      have he : pos + (n - pos) = n := by omega
      rw [he]; exact hacc
    obtain ⟨f1, ⟨w1, pos1⟩, h1⟩ := refill_exists src (n - pos) pos w0 hk
    obtain ⟨f2, ⟨ws2, pos2⟩, h2⟩ := ih pos1
    refine ⟨max f1 f2, (w1 :: ws2, pos2), ?_⟩
    simp only [filterWords,
      refill_mono src f1 (max f1 f2) pos w0 (w1, pos1) (le_max_left _ _) h1,
      filterWords_mono src ws f2 (max f1 f2) pos1 (ws2, pos2)
        (le_max_right _ _) h2]

theorem refill_const_zero : ∀ f pos, refill (fun _ => 0) f pos 0 = none := by
  intro f
  induction f with
  | zero =>
    intro pos
    simp only [refill]
    rw [if_neg (by decide)]
  | succ f ih =>
    intro pos
    simp only [refill]
    rw [if_neg (by decide)]
    exact ih (pos + 1)

theorem do_block_calloc_fail (bulkBytes : Nat) (src : Nat → Nat)
    (fuel pos nwords : Nat) :
    do_block false bulkBytes src fuel pos nwords = .fatal callocMsg := by
  simp [do_block]

theorem do_block_short_read (bulkBytes : Nat) (src : Nat → Nat)
    (fuel pos nwords : Nat) (hb : bulkBytes ≠ 4 * nwords) :
    do_block true bulkBytes src fuel pos nwords = .fatal readMsg := by
  simp only [do_block]
  rw [if_neg (by simp), if_pos hb]

theorem do_block_run (bulkBytes : Nat) (src : Nat → Nat)
    (fuel pos nwords : Nat) (hb : bulkBytes = 4 * nwords) :
    do_block true bulkBytes src fuel pos nwords =
      match filterWords src fuel (pos + nwords)
          ((List.range nwords).map (fun k => src (pos + k))) with
      | none => .hang
      | some (data, pos') => .ok data pos' := by
  simp only [do_block]
  rw [if_neg (by simp), if_neg (by omega)]

theorem mainProg_open_fail (env : Env) (fuel : Nat) (h : env.openOk = false) :
    mainProg env fuel = .exited 1 "" [openMsg] := by
  simp only [mainProg]
  rw [if_pos h]

theorem mainProg_calloc_fail (env : Env) (fuel : Nat)
    (ho : env.openOk = true) (hc : env.callocOk = false) :
    mainProg env fuel = .exited 1 preamble [callocMsg] := by
  simp only [mainProg]
  rw [if_neg (by simp [ho]), hc, do_block_calloc_fail]

theorem mainProg_short_read (env : Env) (fuel : Nat)
    (ho : env.openOk = true) (hc : env.callocOk = true)
    (hb : env.bulkBytes ≠ 4 * TOTAL_POOL_WORDS) :
    mainProg env fuel = .exited 1 preamble [readMsg] := by
  simp only [mainProg]
  rw [if_neg (by simp [ho]), hc, do_block_short_read _ _ _ _ _ hb]

theorem mainProg_ok (env : Env) (fuel : Nat) (data : List Nat) (pos' : Nat)
    (ho : env.openOk = true)
    (h : do_block env.callocOk env.bulkBytes env.src fuel 0 TOTAL_POOL_WORDS =
      .ok data pos') :
    mainProg env fuel = .exited 0 (preamble ++ printArray "pools" data) [] := by
  simp only [mainProg]
  rw [if_neg (by simp [ho]), h]

/-- C9: the concrete acceptance-filter test vectors: 0x00000000 and
0xFFFFFFFF are rejected on population count 0 and 32, 0x0000000F is
rejected on population count 4 < 8, 0x0F0F0F0F has population count 16
and four bytes 0x0F and is accepted, and 0x00FFFF00 is rejected because
of its 0x00 bytes although its population count 16 passes. -/
theorem C9_test_vectors :
    accept 0x00000000 = 0 ∧ popcount 0x00000000 = 0 ∧
    accept 0xFFFFFFFF = 0 ∧ popcount 0xFFFFFFFF = 32 ∧
    accept 0x0000000F = 0 ∧ popcount 0x0000000F = 4 ∧
    accept 0x0F0F0F0F = 1 ∧ popcount 0x0F0F0F0F = 16 ∧
    (∀ i, i < 4 → byte 0x0F0F0F0F i = 0x0F) ∧
    accept 0x00FFFF00 = 0 ∧ popcount 0x00FFFF00 = 16 ∧
    byte 0x00FFFF00 0 = 0x00 := by
  decide

/-- C2: in every terminating do_block run in which every read succeeds
(read success is built into the stream model of the device), each word
of the emitted buffer satisfies the acceptance filter — the filter loop
re-checks every position, including words whose bulk-read value already
passed. -/
theorem C2_do_block_all_accepted (callocOk : Bool) (bulkBytes : Nat)
    (src : Nat → Nat) (fuel pos nwords : Nat) (data : List Nat) (pos' : Nat)
    (h : do_block callocOk bulkBytes src fuel pos nwords = .ok data pos') :
    ∀ w ∈ data, accept w = 1 := by
  simp only [do_block] at h
  split at h
  · exact DBResult.noConfusion h
  split at h
  · exact DBResult.noConfusion h
  cases hf : filterWords src fuel (pos + nwords)
      ((List.range nwords).map (fun k => src (pos + k))) with
  | none => rw [hf] at h; exact DBResult.noConfusion h
  | some r =>
    obtain ⟨ws2, pos2⟩ := r
    rw [hf] at h
    simp only [DBResult.ok.injEq] at h
    obtain ⟨rfl, -⟩ := h
    exact filterWords_accept src fuel _ _ _ _ hf

theorem C2_witness : accept 0x0F0F0F0F = 1 :=
  C2_do_block_all_accepted true 4 (fun _ => 0x0F0F0F0F) 0 0 1 [0x0F0F0F0F] 1
    (by decide) 0x0F0F0F0F (by decide)

/-- C4: the word-replacement retry loop terminates for every entropy
stream that keeps eventually supplying an acceptable word — some finite
fuel makes do_block return its filtered block — but it is not a
guaranteed-terminating algorithm: on the all-zero stream (which never
supplies an acceptable word) do_block hangs for every fuel bound. -/
theorem C4_retry_termination :
    (∀ src pos nwords, (∀ start, ∃ n, start ≤ n ∧ accept (src n) ≠ 0) →
      ∃ fuel data pos',
        do_block true (4 * nwords) src fuel pos nwords = .ok data pos')
    ∧ (∀ fuel, do_block true 4 (fun _ => 0) fuel 0 1 = .hang) := by
  constructor
  · intro src pos nwords hsrc
    obtain ⟨f, ⟨data, pos'⟩, hf⟩ := filterWords_exists src hsrc
      ((List.range nwords).map (fun k => src (pos + k))) (pos + nwords)
    refine ⟨f, data, pos', ?_⟩
    rw [do_block_run (4 * nwords) src f pos nwords rfl, hf]
  · intro fuel
    rw [do_block_run 4 (fun _ => 0) fuel 0 1 rfl]
    have hz : filterWords (fun _ => 0) fuel (0 + 1)
        ((List.range 1).map (fun k => (fun _ : Nat => 0) (0 + k))) = none := by
      show filterWords (fun _ => 0) fuel 1 [0] = none
      simp only [filterWords, refill_const_zero fuel 1]
    rw [hz]

theorem C4_witness :
    ∃ fuel data pos',
      do_block true (4 * 1) (fun _ => 0x0F0F0F0F) fuel 0 1 = .ok data pos' :=
  C4_retry_termination.1 (fun _ => 0x0F0F0F0F) 0 1
    (fun start => ⟨start, le_rfl, by show accept 0x0F0F0F0F ≠ 0; decide⟩)

/-- C5: the process exits 0 on success; each of the three fatal paths —
open failure, calloc failure, short bulk read — exits 1 after printing
its own diagnostic to stderr, and the three diagnostics are pairwise
distinct. -/
theorem C5_exit_codes :
    (∀ env fuel data pos', env.openOk = true →
      do_block env.callocOk env.bulkBytes env.src fuel 0 TOTAL_POOL_WORDS =
        .ok data pos' →
      mainProg env fuel = .exited 0 (preamble ++ printArray "pools" data) [])
    ∧ (∀ env fuel, env.openOk = false →
        mainProg env fuel = .exited 1 "" [openMsg])
    ∧ (∀ env fuel, env.openOk = true → env.callocOk = false →
        mainProg env fuel = .exited 1 preamble [callocMsg])
    ∧ (∀ env fuel, env.openOk = true → env.callocOk = true →
        env.bulkBytes ≠ 4 * TOTAL_POOL_WORDS →
        mainProg env fuel = .exited 1 preamble [readMsg])
    ∧ openMsg ≠ callocMsg ∧ openMsg ≠ readMsg ∧ callocMsg ≠ readMsg := by
  refine ⟨?_, ?_, ?_, ?_, by decide, by decide, by decide⟩
  · exact fun env fuel data pos' ho h => mainProg_ok env fuel data pos' ho h
  · exact fun env fuel h => mainProg_open_fail env fuel h
  · exact fun env fuel ho hc => mainProg_calloc_fail env fuel ho hc
  · exact fun env fuel ho hc hb => mainProg_short_read env fuel ho hc hb

theorem C5_witness :
    mainProg ⟨false, true, 0, fun _ => 0⟩ 0 = .exited 1 "" [openMsg]
    ∧ mainProg ⟨true, false, 0, fun _ => 0⟩ 0 = .exited 1 preamble [callocMsg]
    ∧ mainProg ⟨true, true, 0, fun _ => 0⟩ 0 = .exited 1 preamble [readMsg] :=
  ⟨C5_exit_codes.2.1 ⟨false, true, 0, fun _ => 0⟩ 0 rfl,
    C5_exit_codes.2.2.1 ⟨true, false, 0, fun _ => 0⟩ 0 rfl rfl,
    C5_exit_codes.2.2.2.1 ⟨true, true, 0, fun _ => 0⟩ 0 rfl rfl (by decide)⟩

/-- C6: a short bulk read is immediately fatal — do_block produces the
read diagnostic with no retry and contributes nothing to stdout, and at
the whole-program level stdout is left exactly as it was before the
do_block call (the preamble). -/
theorem C6_short_read_fatal (bulkBytes : Nat) (src : Nat → Nat)
    (fuel pos nwords : Nat) (name : String) (hb : bulkBytes ≠ 4 * nwords) :
    do_block true bulkBytes src fuel pos nwords = .fatal readMsg
    ∧ dbStdout name (do_block true bulkBytes src fuel pos nwords) = ""
    ∧ (∀ env fuel2, env.openOk = true → env.callocOk = true →
        env.bulkBytes ≠ 4 * TOTAL_POOL_WORDS →
        mainProg env fuel2 = .exited 1 preamble [readMsg]
        ∧ runStdout (mainProg env fuel2) = preamble) := by
  have h1 := do_block_short_read bulkBytes src fuel pos nwords hb
  refine ⟨h1, by rw [h1]; rfl, ?_⟩
  intro env fuel2 ho hc hbe
  have h2 := mainProg_short_read env fuel2 ho hc hbe
  exact ⟨h2, by rw [h2]; rfl⟩

theorem C6_witness : do_block true 0 (fun _ => 0) 0 0 1 = .fatal readMsg :=
  (C6_short_read_fatal 0 (fun _ => 0) 0 0 1 "pools" (by decide)).1

theorem digitChar_isHex (n : Nat) (h : n < 16) :
    isHexChar (Nat.digitChar n) = true := by
  interval_cases n <;> decide

theorem hex8_length (w : Nat) : (hex8 w).length = 8 := rfl

theorem hex8_chars (w : Nat) : ∀ c ∈ (hex8 w).toList, isHexChar c = true := by
  intro c hc
  have he : (hex8 w).toList =
      [Nat.digitChar (w / 16 ^ 7 % 16), Nat.digitChar (w / 16 ^ 6 % 16),
        Nat.digitChar (w / 16 ^ 5 % 16), Nat.digitChar (w / 16 ^ 4 % 16),
        Nat.digitChar (w / 16 ^ 3 % 16), Nat.digitChar (w / 16 ^ 2 % 16),
        Nat.digitChar (w / 16 ^ 1 % 16), Nat.digitChar (w % 16)] := rfl
  rw [he] at hc
  simp only [List.mem_cons, List.not_mem_nil, or_false] at hc
  rcases hc with rfl | rfl | rfl | rfl | rfl | rfl | rfl | rfl <;>
    exact digitChar_isHex _ (Nat.mod_lt _ (by omega))

theorem chunksAux_fuel (k : Nat) (hk : 0 < k) :
    ∀ f₁ f₂ (l : List α), l.length ≤ f₁ → l.length ≤ f₂ →
      chunksAux k f₁ l = chunksAux k f₂ l := by
  intro f₁
  induction f₁ with
  | zero =>
    intro f₂ l h₁ _
    have : l = [] := List.length_eq_zero.mp (Nat.le_zero.mp h₁)
    subst this
    cases f₂ <;> rfl
  | succ f ih =>
    intro f₂ l h₁ h₂
    cases l with
    | nil => cases f₂ <;> rfl
    | cons x xs =>
      cases f₂ with
      | zero => simp at h₂
      | succ g =>
        simp only [List.length_cons] at h₁ h₂
        simp only [chunksAux]
        rw [ih g ((x :: xs).drop k)
          (by simp only [List.length_drop, List.length_cons]; omega)
          (by simp only [List.length_drop, List.length_cons]; omega)]

theorem chunks_cons (k : Nat) (hk : 0 < k) (l : List α) (hl : l ≠ []) :
    chunks k l = l.take k :: chunks k (l.drop k) := by
  obtain ⟨x, xs, rfl⟩ := List.exists_cons_of_ne_nil hl
  show chunksAux k (x :: xs).length (x :: xs) = _
  simp only [List.length_cons, chunksAux]
  rw [chunksAux_fuel k hk xs.length ((x :: xs).drop k).length ((x :: xs).drop k)
    (by simp only [List.length_drop, List.length_cons]; omega) le_rfl]
  rfl

theorem chunks_ne_nil (k : Nat) (hk : 0 < k) (l : List α) (hl : l ≠ []) :
    chunks k l ≠ [] := by
  rw [chunks_cons k hk l hl]
  exact List.cons_ne_nil _ _

theorem sepJoin_cons (s t : String) (ts : List String) (h : ts ≠ []) :
    sepJoin s (t :: ts) = t ++ s ++ sepJoin s ts := by
  obtain ⟨t2, ts2, rfl⟩ := List.exists_cons_of_ne_nil h
  rfl

theorem renderToks_nil (n i : Nat) : renderToks n i [] = "" := rfl

theorem renderToks_cons (n i : Nat) (t : String) (ts : List String) :
    renderToks n i (t :: ts) = t ++ sepAfter i n ++ renderToks n (i + 1) ts :=
  rfl

theorem renderToks_single_chunk :
    ∀ (ts : List String) (i n : Nat), ts ≠ [] → i + ts.length = n →
      i % 8 + ts.length ≤ 8 →
      renderToks n i ts = sepJoin ", " ts ++ " \x7d ;\n" := by
  intro ts
  induction ts with
  | nil => intro i n h; exact absurd rfl h
  | cons t ts ih =>
    intro i n _ hn hle
    cases ts with
    | nil =>
      rw [renderToks_cons, renderToks_nil]
      simp only [sepJoin]
      have hi : i = n - 1 := by simp at hn; omega
      rw [sepAfter, if_pos hi, String.append_empty]
    | cons t2 ts2 =>
      rw [renderToks_cons]
      have hlen : (t :: t2 :: ts2).length = ts2.length + 2 := by simp
      rw [hlen] at hn hle
      have hlast : ¬ i = n - 1 := by omega
      have hmod : ¬ i % 8 = 7 := by omega
      rw [sepAfter, if_neg hlast, if_neg hmod]
      rw [ih (i + 1) n (List.cons_ne_nil _ _) (by simp; omega) (by simp; omega)]
      rw [sepJoin_cons ", " t (t2 :: ts2) (List.cons_ne_nil _ _)]
      simp [String.append_assoc]

theorem renderToks_chunk_append :
    ∀ (a b : List String) (i n : Nat), b ≠ [] →
      i % 8 + a.length = 8 → i + a.length + b.length = n →
      renderToks n i (a ++ b) =
        sepJoin ", " a ++ ",\n" ++ renderToks n (i + a.length) b := by
  intro a
  induction a with
  | nil =>
    intro b i n _ h8 _
    have := Nat.mod_lt i (show 0 < 8 by decide)
    simp at h8
    omega
  | cons t a ih =>
    intro b i n hb h8 hn
    have hblen : 0 < b.length := List.length_pos.mpr hb
    cases a with
    | nil =>
      rw [List.singleton_append, renderToks_cons]
      simp only [sepJoin]
      simp only [List.length_singleton] at h8 hn
      have h7 : i % 8 = 7 := by omega
      have hlast : ¬ i = n - 1 := by omega
      rw [sepAfter, if_neg hlast, if_pos h7]
      simp [String.append_assoc]
    | cons t2 a2 =>
      rw [List.cons_append, renderToks_cons]
      have hlen : (t :: t2 :: a2).length = a2.length + 2 := by simp
      rw [hlen] at h8 hn
      have hlast : ¬ i = n - 1 := by omega
      have hmod : ¬ i % 8 = 7 := by omega
      rw [sepAfter, if_neg hlast, if_neg hmod]
      rw [ih b (i + 1) n hb (by simp; omega) (by simp; omega)]
      rw [sepJoin_cons ", " t (t2 :: a2) (List.cons_ne_nil _ _)]
      have hidx : i + 1 + (t2 :: a2).length = i + (t :: t2 :: a2).length := by
        simp; omega
      rw [hidx]
      simp [String.append_assoc]

theorem renderToks_chunked :
    ∀ N (ts : List String) i, ts.length ≤ N → ts ≠ [] → i % 8 = 0 →
      renderToks (i + ts.length) i ts =
        sepJoin ",\n" ((chunks 8 ts).map (sepJoin ", ")) ++ " \x7d ;\n" := by
  intro N
  induction N with
  | zero =>
    intro ts i hN hne _
    exact absurd (List.length_eq_zero.mp (Nat.le_zero.mp hN)) hne
  | succ N ih =>
    intro ts i hN hne hmod
    by_cases hlen : ts.length ≤ 8
    · have hch : chunks 8 ts = [ts] := by
        rw [chunks_cons 8 (by decide) ts hne, List.take_of_length_le hlen,
          List.drop_eq_nil_of_le hlen]
        rfl
      rw [hch]
      simp only [List.map_cons, List.map_nil, sepJoin]
      exact renderToks_single_chunk ts i (i + ts.length) hne rfl (by omega)
    · push_neg at hlen
      have hta : (ts.take 8).length = 8 := by
        rw [List.length_take]; omega
      have htd : (ts.drop 8).length = ts.length - 8 := List.length_drop 8 ts
      have hdne : ts.drop 8 ≠ [] := by
        apply List.ne_nil_of_length_pos
        rw [htd]; omega
      have happ := renderToks_chunk_append (ts.take 8) (ts.drop 8) i
        (i + ts.length) hdne (by rw [hta, hmod]) (by rw [hta, htd]; omega)
      rw [List.take_append_drop] at happ
      rw [happ, hta]
      have hn2 : i + ts.length = (i + 8) + (ts.drop 8).length := by
        rw [htd]; omega
      rw [hn2, ih (ts.drop 8) (i + 8) (by omega) hdne (by omega)]
      rw [chunks_cons 8 (by decide) ts hne, List.map_cons]
      rw [sepJoin_cons ",\n" _ _ (by
        intro hc
        exact chunks_ne_nil 8 (by decide) (ts.drop 8) hdne
          (List.map_eq_nil_iff.mp hc))]
      simp [String.append_assoc]

/-- C7: a successful do_block emits exactly nwords values — the filter
loop preserves the buffer length, which the bulk read sets to nwords —
and the printed text is the array literal of the spec: the name header,
the values comma-separated eight per line, and the closing brace and
semicolon; each value token is 0x followed by exactly 8 hex digits. -/
theorem C7_output_format :
    (∀ callocOk bulkBytes src fuel pos nwords data pos',
      do_block callocOk bulkBytes src fuel pos nwords = .ok data pos' →
      data.length = nwords)
    ∧ (∀ name (data : List Nat), data ≠ [] →
        printArray name data =
          specArray name (data.map (fun w => "0x" ++ hex8 w)))
    ∧ (∀ w : Nat, ("0x" ++ hex8 w).length = 10 ∧ (hex8 w).length = 8 ∧
        ∀ c ∈ (hex8 w).toList, isHexChar c = true) := by
  refine ⟨?_, ?_, ?_⟩
  · intro callocOk bulkBytes src fuel pos nwords data pos' h
    simp only [do_block] at h
    split at h
    · exact DBResult.noConfusion h
    split at h
    · exact DBResult.noConfusion h
    cases hf : filterWords src fuel (pos + nwords)
        ((List.range nwords).map (fun k => src (pos + k))) with
    | none => rw [hf] at h; exact DBResult.noConfusion h
    | some r =>
      obtain ⟨ws2, pos2⟩ := r
      rw [hf] at h
      simp only [DBResult.ok.injEq] at h
      obtain ⟨rfl, -⟩ := h
      rw [filterWords_length src fuel _ _ _ _ hf]
      simp
  · intro name data hne
    have hmne : data.map (fun w => "0x" ++ hex8 w) ≠ [] := by
      intro hc
      exact hne (List.map_eq_nil_iff.mp hc)
    have hml : (data.map (fun w => "0x" ++ hex8 w)).length = data.length :=
      List.length_map data _
    simp only [printArray, specArray]
    have hz : data.length = 0 + (data.map (fun w => "0x" ++ hex8 w)).length := by
      rw [hml]; omega
    rw [hz, renderToks_chunked (data.map (fun w => "0x" ++ hex8 w)).length
      (data.map (fun w => "0x" ++ hex8 w)) 0 le_rfl hmne (by omega)]
    simp [String.append_assoc]
  · intro w
    refine ⟨?_, hex8_length w, hex8_chars w⟩
    rw [String.length_append, hex8_length]
    rfl

theorem C7_witness :
    printArray "pools" [0xDEADBEEF, 0x0F0F0F0F] =
      specArray "pools"
        ([0xDEADBEEF, 0x0F0F0F0F].map (fun w => "0x" ++ hex8 w)) :=
  C7_output_format.2.1 "pools" [0xDEADBEEF, 0x0F0F0F0F] (by decide)

/-- C10: whenever the entropy source opens, the run's stdout starts with
the header comment followed by the three #define lines, printed before
any block, and the printed values 128, 32 and 12 are exactly the
compiled-in constants 1 <<< (12 - 5), 1 <<< (10 - 5) and
INPUT_POOL_SHIFT. -/
theorem C10_preamble (env : Env) (fuel : Nat) (h : env.openOk = true) :
    (∃ rest, runStdout (mainProg env fuel) = preamble ++ rest)
    ∧ preamble = "/* File generated by gen_random_init.c */\n\n#define INPUT_POOL_WORDS 128\n#define OUTPUT_POOL_WORDS 32\n#define INPUT_POOL_SHIFT 12\n\n"
    ∧ INPUT_POOL_WORDS = 128 ∧ INPUT_POOL_WORDS = 1 <<< (12 - 5)
    ∧ OUTPUT_POOL_WORDS = 32 ∧ OUTPUT_POOL_WORDS = 1 <<< (10 - 5)
    ∧ INPUT_POOL_SHIFT = 12 := by
  refine ⟨?_, by decide, by decide, by decide, by decide, by decide, by decide⟩
  simp only [mainProg]
  rw [if_neg (by simp [h])]
  cases hdb : do_block env.callocOk env.bulkBytes env.src fuel 0
      TOTAL_POOL_WORDS with
  | fatal msg =>
    exact ⟨"", by show preamble = preamble ++ ""; rw [String.append_empty]⟩
  | hang =>
    exact ⟨"", by show preamble = preamble ++ ""; rw [String.append_empty]⟩
  | ok data pos2 => exact ⟨printArray "pools" data, rfl⟩

theorem C10_witness :
    ∃ rest,
      runStdout (mainProg ⟨true, false, 0, fun _ => 0⟩ 0) = preamble ++ rest :=
  (C10_preamble ⟨true, false, 0, fun _ => 0⟩ 0 rfl).1

end GenRandom
